import Mathlib

/-!
Shallow embedding of the PathArmor static CFG store
(src/dyninst-static/arms_cfg.h) and its construction operations.

The header declares the CFG class: constructors, entry-point accessors and
the inline counters are translated directly from it.  The bodies of the
lookup, block-splitting, interprocedural-resolution, edge and comparison
members live in a .C file that is not part of src/, so those operations are
modelled from the specification (spec.md sections 4.1 to 4.5); each such
definition carries a doc comment saying so.

Machine addresses are modelled as Nat.  Instruction granularity: the spec
describes blocks purely by half-open address ranges, so a block is the pair
of its start address and its last-instruction address, and the instruction
immediately preceding address T is T - 1.
-/

/-- Edge kinds (arms_edge_type_t): FALLTHROUGH, JUMP, COND_JUMP, CALL,
CALL_PLT, RETURN, TAILCALL/INTERPROC_JUMP. -/
inductive arms_edge_type_t where
  | fallthrough
  | jump
  | cond_jump
  | call
  | call_plt
  | ret
  | inter_jmp
deriving DecidableEq, Repr

/-- A basic block: start address and last-instruction address, both
immutable once the block is finalized (spec section 3). -/
structure ArmsBasicBlock where
  start : Nat
  last_insn : Nat
deriving DecidableEq, Repr

/-- A function: entry address (immutable identity) plus role flags
(spec section 3). -/
structure ArmsFunction where
  entry : Nat
  is_dummy : Bool
  is_plt : Bool
deriving DecidableEq, Repr

/-- A typed directed edge, identified by its (source, target, kind) triple
of block/function-entry addresses (spec sections 3 and 4.4). -/
structure ArmsEdge where
  src : Nat
  dst : Nat
  kind : arms_edge_type_t
deriving DecidableEq, Repr

/-- The CFG store for one module (class CFG of arms_cfg.h).  The two
address-keyed STL maps start2bb and last2bb are modelled as association
lists; functions likewise.  Field names follow the header. -/
structure CFG where
  module_name : String
  start_addr_ : Nat
  end_addr_ : Nat
  is_library_ : Bool
  entry_points : List ArmsBasicBlock
  single_entry_point : Bool
  functions : List (Nat × ArmsFunction)
  start2bb : List (Nat × ArmsBasicBlock)
  last2bb : List (Nat × ArmsBasicBlock)
  num_bb : Nat
  edges : List ArmsEdge
deriving DecidableEq, Repr

/-- The CFG(ArmsBasicBlock *root) constructor of arms_cfg.h: inserts the
root into entry_points and sets single_entry_point to true; every other
collection starts empty and num_bb is 0. -/
def CFG.ofRoot (root : ArmsBasicBlock) : CFG :=
  { module_name := ""
    start_addr_ := 0
    end_addr_ := 0
    is_library_ := false
    entry_points := [root]
    single_entry_point := true
    functions := []
    start2bb := []
    last2bb := []
    num_bb := 0
    edges := [] }

/-- The CFG(const char *module_name) constructor of arms_cfg.h: records the
module name, leaves entry_points empty and sets single_entry_point to
false; every collection starts empty and num_bb is 0. -/
def CFG.ofModule (name : String) : CFG :=
  { module_name := name
    start_addr_ := 0
    end_addr_ := 0
    is_library_ := false
    entry_points := []
    single_entry_point := false
    functions := []
    start2bb := []
    last2bb := []
    num_bb := 0
    edges := [] }

/-- single_entry() of arms_cfg.h: returns the single_entry_point flag. -/
def CFG.single_entry (g : CFG) : Bool :=
  g.single_entry_point

/-- get_entry() of arms_cfg.h returns *entry_points.begin(); dereferencing
begin() of an empty set is undefined, so the embedding returns an Option
that is none exactly when no entry point is registered. -/
def CFG.get_entry (g : CFG) : Option ArmsBasicBlock :=
  g.entry_points.head?

/-- count_basic_blocks() of arms_cfg.h: returns start2bb.size(). -/
def CFG.count_basic_blocks (g : CFG) : Nat :=
  g.start2bb.length

/-- count_functions() of arms_cfg.h: returns functions.size(). -/
def CFG.count_functions (g : CFG) : Nat :=
  g.functions.length

/-- Modelled from the spec: count_edges() is declared in arms_cfg.h but its
body is missing from src/; the spec (section 4.5) calls it the aggregate
edge count, so it is the size of the edge set. -/
def CFG.count_edges (g : CFG) : Nat :=
  g.edges.length

/-- find_bb(start_address) declared in arms_cfg.h; modelled from the spec
(section 4.1): the block whose start address equals the query, or none,
looked up through the start2bb index. -/
def CFG.find_bb (g : CFG) (a : Nat) : Option ArmsBasicBlock :=
  (g.start2bb.find? (fun p => decide (p.1 = a))).map (fun p => p.2)

/-- find_bb_by_last_insn_address declared in arms_cfg.h; modelled from the
spec (section 4.1): the block whose last instruction is at the query
address, or none, looked up through the last2bb index. -/
def CFG.find_bb_by_last_insn_address (g : CFG) (a : Nat) : Option ArmsBasicBlock :=
  (g.last2bb.find? (fun p => decide (p.1 = a))).map (fun p => p.2)

/-- Modelled from the spec (section 4.1): the block whose instruction range
strictly contains the address (the address lies inside the block but not at
its start), used to locate the block a split request lands in. -/
def CFG.find_bb_strictly_containing (g : CFG) (a : Nat) : Option ArmsBasicBlock :=
  (g.start2bb.find? (fun p => decide (p.2.start < a) && decide (a ≤ p.2.last_insn))).map
    (fun p => p.2)

/-- addr_in_cfg declared in arms_cfg.h; modelled from the spec (section
4.1): the module's declared [start_addr, end_addr) range is the coarser
containment test applied first, falling back to a block-span lookup. -/
def CFG.addr_in_cfg (g : CFG) (a : Nat) : Bool :=
  if g.start_addr_ ≤ a ∧ a < g.end_addr_ then
    true
  else
    (g.start2bb.find? (fun p => decide (p.2.start ≤ a) && decide (a ≤ p.2.last_insn))).isSome

/-- Redirection of one edge during a block split: an edge leaving the
original block (source address A) now leaves the new tail block (source
address T); every other edge is untouched (spec section 4.1). -/
def splitEdge (A T : Nat) (e : ArmsEdge) : ArmsEdge :=
  if e.src = A then { e with src := T } else e

/-- Modelled from the spec (section 4.1), block splitting; the member
implementations behind find_bb/create_and_add_edge are missing from src/.
If the split address is already a block start, nothing happens (idempotent
no-op).  Otherwise, if some block [A, E) strictly contains T, that block is
replaced by a head [A, T) whose last instruction immediately precedes T and
a tail [T, E); both indexes drop the old block and gain the two new ones;
outgoing edges of the original block are transferred to the tail, incoming
edges stay on the head, and one FALLTHROUGH edge head -> tail is added. -/
def CFG.split_bb (g : CFG) (T : Nat) : CFG :=
  match g.find_bb T with
  | some _ => g
  | none =>
    match g.find_bb_strictly_containing T with
    | none => g
    | some b =>
      let head : ArmsBasicBlock := { start := b.start, last_insn := T - 1 }
      let tail : ArmsBasicBlock := { start := T, last_insn := b.last_insn }
      { g with
        start2bb := (b.start, head) :: (T, tail) ::
          g.start2bb.filter (fun p => !(decide (p.1 = b.start)))
        last2bb := (T - 1, head) :: (b.last_insn, tail) ::
          g.last2bb.filter (fun p => !(decide (p.1 = b.last_insn)))
        num_bb := g.num_bb + 1
        edges := { src := b.start, dst := T, kind := arms_edge_type_t.fallthrough } ::
          g.edges.map (splitEdge b.start T) }

/-- Modelled from the spec (sections 3 and 7): store_bb is declared in
arms_cfg.h but its body is missing from src/.  A block is inserted into
both indexes in sync; a degenerate block or one overlapping an existing
block's span is an invariant violation (spec section 7b, asserted in the
original), modelled as a rejected insert. -/
def CFG.store_bb (g : CFG) (bb : ArmsBasicBlock) : CFG :=
  if bb.last_insn < bb.start then
    g
  else if g.start2bb.any
      (fun p => decide (bb.start ≤ p.2.last_insn) && decide (p.2.start ≤ bb.last_insn)) then
    g
  else
    { g with
      start2bb := (bb.start, bb) :: g.start2bb
      last2bb := (bb.last_insn, bb) :: g.last2bb
      num_bb := g.num_bb + 1 }

/-- One block-index mutation fed by the construction driver: either an
insert of a finished block or a split request at a discovered target
address (spec section 2). -/
inductive CfgOp where
  | insert (bb : ArmsBasicBlock)
  | split (t : Nat)
deriving DecidableEq, Repr

/-- Apply one block-index mutation. -/
def CFG.applyOp (g : CFG) : CfgOp → CFG
  | CfgOp.insert bb => g.store_bb bb
  | CfgOp.split t => g.split_bb t

/-- Apply a sequence of block-index mutations in order. -/
def CFG.applyOps (g : CFG) (ops : List CfgOp) : CFG :=
  ops.foldl CFG.applyOp g

/-- find_function declared in arms_cfg.h; modelled from the spec (section
4.2): lookup of a function by entry address in the functions map. -/
def CFG.find_function (g : CFG) (a : Nat) : Option ArmsFunction :=
  (g.functions.find? (fun p => decide (p.1 = a))).map (fun p => p.2)

/-- create_dummy_function declared in arms_cfg.h; modelled from the spec
(section 4.2): a placeholder Function flagged is_dummy is created at the
address and stored under that key. -/
def CFG.create_dummy_function (g : CFG) (a : Nat) : CFG × ArmsFunction :=
  let f : ArmsFunction := { entry := a, is_dummy := true, is_plt := false }
  ({ g with functions := (a, f) :: g.functions }, f)

/-- Modelled from the spec (section 4.3, resolution order): lookup of the
call target in the local function table takes precedence over creating a
new dummy, so one address never gets two Function objects. -/
def CFG.resolve_callee (g : CFG) (t : Nat) : CFG × ArmsFunction :=
  match g.find_function t with
  | some f => (g, f)
  | none => g.create_dummy_function t

/-- Modelled from the spec (section 4.4): an edge is added only if an
identical (source, target, kind) triple is not already present. -/
def CFG.add_edge_dedup (g : CFG) (e : ArmsEdge) : CFG :=
  if e ∈ g.edges then g else { g with edges := e :: g.edges }

/-- handle_interprocedural_call declared in arms_cfg.h; modelled from the
spec (section 4.3): the target is resolved via find_function, synthesizing
a dummy when absent; a CALL edge runs from the call site to the callee
entry; when the call site's fallthrough address is known a RETURN edge runs
from the callee back to it, and when it is unknown no return edge is
created. -/
def CFG.handle_interprocedural_call (g : CFG) (call_site target : Nat)
    (fallthrough : Option Nat) : CFG :=
  let gf := g.resolve_callee target
  let g2 := gf.1.add_edge_dedup
    { src := call_site, dst := gf.2.entry, kind := arms_edge_type_t.call }
  match fallthrough with
  | none => g2
  | some r => g2.add_edge_dedup
      { src := gf.2.entry, dst := r, kind := arms_edge_type_t.ret }

/-- handle_interprocedural_jmp declared in arms_cfg.h; modelled from the
spec (section 4.3): a tail call creates only the interprocedural jump edge
to the resolved target's entry; no return edge is ever synthesized. -/
def CFG.handle_interprocedural_jmp (g : CFG) (call_site target : Nat) : CFG :=
  let gf := g.resolve_callee target
  gf.1.add_edge_dedup
    { src := call_site, dst := gf.2.entry, kind := arms_edge_type_t.inter_jmp }

/-- One interprocedural fact fed by the construction driver (spec
section 6): a call site with its target and optional fallthrough, or a
tail call / interprocedural jump. -/
inductive CallFact where
  | call (call_site target : Nat) (fallthrough : Option Nat)
  | jmp (call_site target : Nat)
deriving DecidableEq, Repr

/-- Apply one interprocedural fact. -/
def CFG.applyCall (g : CFG) : CallFact → CFG
  | CallFact.call cs t ft => g.handle_interprocedural_call cs t ft
  | CallFact.jmp cs t => g.handle_interprocedural_jmp cs t

/-- Apply a sequence of interprocedural facts in order. -/
def CFG.applyCalls (g : CFG) (facts : List CallFact) : CFG :=
  facts.foldl CFG.applyCall g

/-- create_and_add_edge declared in arms_cfg.h; endpoint resolution per the
spec (section 4.4): both endpoint addresses are resolved, splitting an
existing block when the address lands strictly inside it. -/
def CFG.resolve_endpoints (g : CFG) (s d : Nat) : CFG :=
  (g.split_bb s).split_bb d

/-- create_and_add_edge declared in arms_cfg.h; modelled from the spec
(section 4.4): resolves (creating or splitting as needed) both endpoint
blocks, then adds the edge if an identical (source, target, kind) triple
does not already exist. -/
def CFG.create_and_add_edge (g : CFG) (s d : Nat) (k : arms_edge_type_t) : CFG :=
  (g.resolve_endpoints s d).add_edge_dedup { src := s, dst := d, kind := k }

/-- compare_edges declared in arms_cfg.h; modelled from the spec (section
4.5): a structural diff of the two edge sets, reporting first the edges
present in this graph but missing in the other and then the edges present
in the other but missing in this one. -/
def CFG.compare_edges (g other : CFG) : List ArmsEdge × List ArmsEdge :=
  (g.edges.filter (fun e => decide (e ∉ other.edges)),
   other.edges.filter (fun e => decide (e ∉ g.edges)))

/-- Modelled from the spec (section 3, entry-point bookkeeping): an entry
point is registered by inserting the block into the entry_points set while
keeping the invariant single_entry_point = (entry_points.size() = 1). -/
def CFG.add_entry_point (g : CFG) (bb : ArmsBasicBlock) : CFG :=
  let eps := if bb ∈ g.entry_points then g.entry_points else bb :: g.entry_points
  { g with entry_points := eps, single_entry_point := decide (eps.length = 1) }

/-- Apply a sequence of entry-point registrations in order. -/
def CFG.addEntryPoints (g : CFG) (bbs : List ArmsBasicBlock) : CFG :=
  bbs.foldl CFG.add_entry_point g

/-- Well-formedness of the dual block index (spec section 3): both indexes
hold the same collection of blocks, every entry is keyed by the indexed
field, no key repeats, blocks are nonempty and pairwise disjoint in span,
and the num_bb counter matches the index size. -/
def CFG.IndexWF (g : CFG) : Prop :=
  List.Perm (g.start2bb.map Prod.snd) (g.last2bb.map Prod.snd) ∧
  (∀ p ∈ g.start2bb, p.1 = p.2.start) ∧
  (∀ p ∈ g.last2bb, p.1 = p.2.last_insn) ∧
  (g.start2bb.map Prod.fst).Nodup ∧
  (g.last2bb.map Prod.fst).Nodup ∧
  (∀ b ∈ g.start2bb.map Prod.snd, b.start ≤ b.last_insn) ∧
  (g.start2bb.map Prod.snd).Pairwise
    (fun b c => b.last_insn < c.start ∨ c.last_insn < b.start) ∧
  g.num_bb = g.start2bb.length

lemma add_entry_point_flag (g : CFG) (bb : ArmsBasicBlock) :
    ((g.add_entry_point bb).single_entry_point = true ↔
      (g.add_entry_point bb).entry_points.length = 1) := by
  simp [CFG.add_entry_point]

lemma addEntryPoints_flag (bbs : List ArmsBasicBlock) (g : CFG)
    (h : g.single_entry_point = true ↔ g.entry_points.length = 1) :
    ((g.addEntryPoints bbs).single_entry_point = true ↔
      (g.addEntryPoints bbs).entry_points.length = 1) := by
  induction bbs generalizing g with
  | nil => exact h
  | cons b bs ih => exact ih _ (add_entry_point_flag g b)

/-- C8: for every CFG built from either constructor and every sequence of
entry-point additions, single_entry() returns true if and only if exactly
one entry point is registered, i.e. the single_entry_point flag equals
(entry_points.size() = 1). -/
theorem single_entry_iff_one_entry_point (name : String) (root : ArmsBasicBlock)
    (bbs : List ArmsBasicBlock) :
    (((CFG.ofModule name).addEntryPoints bbs).single_entry = true ↔
      ((CFG.ofModule name).addEntryPoints bbs).entry_points.length = 1) ∧
    (((CFG.ofRoot root).addEntryPoints bbs).single_entry = true ↔
      ((CFG.ofRoot root).addEntryPoints bbs).entry_points.length = 1) := by
  constructor
  · exact addEntryPoints_flag bbs _ (by simp [CFG.ofModule])
  · exact addEntryPoints_flag bbs _ (by simp [CFG.ofRoot])

/-- C7: compare_edges is symmetric-reporting: A.compare_edges(B) and
B.compare_edges(A) report the same two sets of differing edges with the
directions swapped, A.compare_edges(A) reports zero differences, and the
comparison is a total function (it never fails). -/
theorem compare_edges_symmetric_reflexive (A B : CFG) :
    (A.compare_edges B).1 = (B.compare_edges A).2 ∧
    (A.compare_edges B).2 = (B.compare_edges A).1 ∧
    A.compare_edges A = ([], []) := by
  refine ⟨rfl, rfl, ?_⟩
  simp [CFG.compare_edges]

/-- C9: addr_in_cfg(address) returns true exactly when the address lies in
the module's declared half-open [start_addr, end_addr) range or within some
known basic block's span, and the module-range containment test alone
already forces a true answer (it is the coarser check applied first). -/
theorem addr_in_cfg_range_or_block (g : CFG) (a : Nat) :
    (g.addr_in_cfg a = true ↔
      ((g.start_addr_ ≤ a ∧ a < g.end_addr_) ∨
        ∃ b ∈ g.start2bb.map Prod.snd, b.start ≤ a ∧ a ≤ b.last_insn)) ∧
    ((g.start_addr_ ≤ a ∧ a < g.end_addr_) → g.addr_in_cfg a = true) := by
  constructor
  · unfold CFG.addr_in_cfg
    split
    · simp [*]
    · rename_i hrange
      simp [List.find?_isSome, hrange]
      constructor
      · rintro ⟨k, b, hmem, h1, h2⟩
        exact ⟨b, ⟨k, hmem⟩, h1, h2⟩
      · rintro ⟨b, ⟨k, hmem⟩, h1, h2⟩
        exact ⟨k, b, hmem, h1, h2⟩
  · intro h
    simp [CFG.addr_in_cfg, h]

/-- C10: the module-name constructor starts with an empty entry_points set
and single_entry_point false, only the root-block constructor registers an
entry and sets the flag true, and get_entry has a defined (some) result
exactly when at least one entry point has been registered — in particular
it is undefined (none) right after the module-name constructor. -/
theorem get_entry_defined_iff_entry_registered (name : String) (g : CFG) :
    (CFG.ofModule name).entry_points = [] ∧
    (CFG.ofModule name).single_entry_point = false ∧
    (CFG.ofModule name).get_entry = none ∧
    (∀ root : ArmsBasicBlock,
      (CFG.ofRoot root).entry_points = [root] ∧
      (CFG.ofRoot root).single_entry_point = true ∧
      (CFG.ofRoot root).get_entry = some root) ∧
    ((g.get_entry).isSome = true ↔ g.entry_points ≠ []) := by
  refine ⟨rfl, rfl, rfl, fun root => ⟨rfl, rfl, rfl⟩, ?_⟩
  cases h : g.entry_points with
  | nil => simp [CFG.get_entry, h]
  | cons x xs => simp [CFG.get_entry, h]

lemma add_edge_dedup_self_mem (g : CFG) (e : ArmsEdge) : e ∈ (g.add_edge_dedup e).edges := by
  unfold CFG.add_edge_dedup
  split
  · assumption
  · exact List.mem_cons_self _ _

lemma add_edge_dedup_mem_of_mem (g : CFG) (e e' : ArmsEdge) (h : e' ∈ g.edges) :
    e' ∈ (g.add_edge_dedup e).edges := by
  unfold CFG.add_edge_dedup
  split
  · exact h
  · exact List.mem_cons_of_mem _ h

lemma add_edge_dedup_mem_cases (g : CFG) (e e' : ArmsEdge)
    (h : e' ∈ (g.add_edge_dedup e).edges) : e' ∈ g.edges ∨ e' = e := by
  unfold CFG.add_edge_dedup at h
  split at h
  · exact Or.inl h
  · rcases List.mem_cons.mp h with h1 | h1
    · exact Or.inr h1
    · exact Or.inl h1

lemma add_edge_dedup_functions (g : CFG) (e : ArmsEdge) :
    (g.add_edge_dedup e).functions = g.functions := by
  unfold CFG.add_edge_dedup
  split <;> rfl

lemma resolve_callee_fst_edges (g : CFG) (t : Nat) :
    (g.resolve_callee t).1.edges = g.edges := by
  unfold CFG.resolve_callee
  cases hf : g.find_function t with
  | none => simp [CFG.create_dummy_function]
  | some f => rfl

lemma find_function_entry (g : CFG) (t : Nat) (f : ArmsFunction)
    (hcoh : ∀ p ∈ g.functions, p.1 = p.2.entry)
    (hf : g.find_function t = some f) : f.entry = t := by
  unfold CFG.find_function at hf
  cases hq : g.functions.find? (fun p => decide (p.1 = t)) with
  | none => rw [hq] at hf; simp at hf
  | some q =>
    rw [hq] at hf
    simp at hf
    have hqt := List.find?_some hq
    have hqm : q ∈ g.functions := List.mem_of_find?_eq_some hq
    have h1 : q.1 = t := by simpa using hqt
    rw [← hf, ← hcoh q hqm, h1]

lemma resolve_callee_entry (g : CFG) (t : Nat)
    (hcoh : ∀ p ∈ g.functions, p.1 = p.2.entry) :
    (g.resolve_callee t).2.entry = t := by
  unfold CFG.resolve_callee
  cases hf : g.find_function t with
  | none => simp [CFG.create_dummy_function]
  | some f => simpa using find_function_entry g t f hcoh hf

/-- C4: for a call site with a known fallthrough address, after resolution
both a CALL edge from the call site to the callee entry and a RETURN edge
from the callee back to the fallthrough exist; with an unknown fallthrough
the call edge exists but no return edge is created; a tail call handled by
handle_interprocedural_jmp creates only the jump edge and never a return
edge. -/
theorem call_return_pairing (g : CFG) (cs t r : Nat)
    (hcoh : ∀ p ∈ g.functions, p.1 = p.2.entry) :
    (ArmsEdge.mk cs t arms_edge_type_t.call ∈
        (g.handle_interprocedural_call cs t (some r)).edges ∧
      ArmsEdge.mk t r arms_edge_type_t.ret ∈
        (g.handle_interprocedural_call cs t (some r)).edges) ∧
    (ArmsEdge.mk cs t arms_edge_type_t.call ∈
        (g.handle_interprocedural_call cs t none).edges ∧
      ∀ e ∈ (g.handle_interprocedural_call cs t none).edges,
        e.kind = arms_edge_type_t.ret → e ∈ g.edges) ∧
    (ArmsEdge.mk cs t arms_edge_type_t.inter_jmp ∈
        (g.handle_interprocedural_jmp cs t).edges ∧
      ∀ e ∈ (g.handle_interprocedural_jmp cs t).edges,
        e ∉ g.edges → e = ArmsEdge.mk cs t arms_edge_type_t.inter_jmp) := by
  have he : (g.resolve_callee t).2.entry = t := resolve_callee_entry g t hcoh
  have hedges : (g.resolve_callee t).1.edges = g.edges := resolve_callee_fst_edges g t
  refine ⟨⟨?_, ?_⟩, ⟨?_, ?_⟩, ?_, ?_⟩
  · simp only [CFG.handle_interprocedural_call, he]
    exact add_edge_dedup_mem_of_mem _ _ _ (add_edge_dedup_self_mem _ _)
  · simp only [CFG.handle_interprocedural_call, he]
    exact add_edge_dedup_self_mem _ _
  · simp only [CFG.handle_interprocedural_call, he]
    exact add_edge_dedup_self_mem _ _
  · intro e hmem hkind
    simp only [CFG.handle_interprocedural_call, he] at hmem
    rcases add_edge_dedup_mem_cases _ _ _ hmem with h1 | h1
    · rw [hedges] at h1; exact h1
    · rw [h1] at hkind; simp at hkind
  · simp only [CFG.handle_interprocedural_jmp, he]
    exact add_edge_dedup_self_mem _ _
  · intro e hmem hnot
    simp only [CFG.handle_interprocedural_jmp, he] at hmem
    rcases add_edge_dedup_mem_cases _ _ _ hmem with h1 | h1
    · rw [hedges] at h1; exact absurd h1 hnot
    · exact h1

/-- C4 witness: in the empty module CFG, a call at 1 to 2 with fallthrough
3 yields both the CALL edge and the RETURN edge, and a tail call yields
only the jump edge. -/
theorem call_return_pairing_witness :
    ArmsEdge.mk 1 2 arms_edge_type_t.call ∈
      ((CFG.ofModule "m").handle_interprocedural_call 1 2 (some 3)).edges ∧
    ArmsEdge.mk 2 3 arms_edge_type_t.ret ∈
      ((CFG.ofModule "m").handle_interprocedural_call 1 2 (some 3)).edges :=
  (call_return_pairing (CFG.ofModule "m") 1 2 3 (by decide)).1

lemma find_function_none_of_out_of_range (g : CFG) (t : Nat)
    (hout : t < g.start_addr_ ∨ g.end_addr_ ≤ t)
    (hfuns : ∀ p ∈ g.functions, g.start_addr_ ≤ p.1 ∧ p.1 < g.end_addr_) :
    g.find_function t = none := by
  unfold CFG.find_function
  rw [Option.map_eq_none']
  rw [List.find?_eq_none]
  intro p hp
  have h2 := hfuns p hp
  simp only [decide_eq_true_eq]
  intro heq
  rw [heq] at h2
  rcases hout with h | h <;> omega

/-- C5: a call whose target lies outside the module's declared address
range never fails: a dummy Function is synthesized at the target address
and stored in the functions map, one CALL edge runs from the call site to
it, one RETURN edge runs from it back to the fallthrough address, and
count_functions() grows by exactly one. -/
theorem external_call_dummy_synthesis (g : CFG) (cs t r : Nat)
    (hout : t < g.start_addr_ ∨ g.end_addr_ ≤ t)
    (hfuns : ∀ p ∈ g.functions, g.start_addr_ ≤ p.1 ∧ p.1 < g.end_addr_) :
    (g.handle_interprocedural_call cs t (some r)).find_function t =
      some (ArmsFunction.mk t true false) ∧
    ArmsEdge.mk cs t arms_edge_type_t.call ∈
      (g.handle_interprocedural_call cs t (some r)).edges ∧
    ArmsEdge.mk t r arms_edge_type_t.ret ∈
      (g.handle_interprocedural_call cs t (some r)).edges ∧
    (g.handle_interprocedural_call cs t (some r)).count_functions =
      g.count_functions + 1 := by
  have hnone := find_function_none_of_out_of_range g t hout hfuns
  have hres : g.resolve_callee t =
      ({ g with functions := (t, ArmsFunction.mk t true false) :: g.functions },
        ArmsFunction.mk t true false) := by
    unfold CFG.resolve_callee
    rw [hnone]
    rfl
  simp only [CFG.handle_interprocedural_call, hres]
  refine ⟨?_, ?_, ?_, ?_⟩
  · unfold CFG.find_function
    rw [add_edge_dedup_functions, add_edge_dedup_functions]
    simp [List.find?]
  · exact add_edge_dedup_mem_of_mem _ _ _ (add_edge_dedup_self_mem _ _)
  · exact add_edge_dedup_self_mem _ _
  · unfold CFG.count_functions
    rw [add_edge_dedup_functions, add_edge_dedup_functions]
    simp

/-- C5 witness: the spec scenario — module range [0x1000, 0x3000), a call
at 0x2000 to external 0xF000 with fallthrough 0x2005 synthesizes a dummy at
0xF000 with the CALL and RETURN edges, and count_functions() becomes 1. -/
theorem external_call_dummy_synthesis_witness :
    (({ CFG.ofModule "m" with start_addr_ := 0x1000, end_addr_ := 0x3000 } :
        CFG).handle_interprocedural_call 0x2000 0xF000 (some 0x2005)).find_function 0xF000 =
      some (ArmsFunction.mk 0xF000 true false) ∧
    (({ CFG.ofModule "m" with start_addr_ := 0x1000, end_addr_ := 0x3000 } :
        CFG).handle_interprocedural_call 0x2000 0xF000 (some 0x2005)).count_functions =
      ({ CFG.ofModule "m" with start_addr_ := 0x1000, end_addr_ := 0x3000 } :
        CFG).count_functions + 1 := by
  have h := external_call_dummy_synthesis
    ({ CFG.ofModule "m" with start_addr_ := 0x1000, end_addr_ := 0x3000 } : CFG)
    0x2000 0xF000 0x2005 (by decide) (by decide)
  exact ⟨h.1, h.2.2.2⟩

/-- C8 witness: after registering one entry point in a fresh module CFG,
single_entry() is true, via the main theorem at concrete inputs. -/
theorem single_entry_iff_one_entry_point_witness :
    ((CFG.ofModule "m").addEntryPoints [ArmsBasicBlock.mk 1 1]).single_entry = true :=
  (single_entry_iff_one_entry_point "m" (ArmsBasicBlock.mk 0 0)
    [ArmsBasicBlock.mk 1 1]).1.mpr (by decide)

/-- C9 witness: an address inside the declared module range is reported in
the CFG, via the main theorem at concrete inputs. -/
theorem addr_in_cfg_range_or_block_witness :
    ({ CFG.ofModule "m" with end_addr_ := 10 } : CFG).addr_in_cfg 5 = true :=
  (addr_in_cfg_range_or_block ({ CFG.ofModule "m" with end_addr_ := 10 } : CFG) 5).2
    (by decide)

/-- C10 witness: the root-block constructor registers an entry, so
get_entry is defined there, via the main theorem at concrete inputs. -/
theorem get_entry_defined_iff_entry_registered_witness :
    ((CFG.ofRoot (ArmsBasicBlock.mk 2 3)).get_entry).isSome = true :=
  (get_entry_defined_iff_entry_registered "m"
    (CFG.ofRoot (ArmsBasicBlock.mk 2 3))).2.2.2.2.mpr (by decide)

lemma resolve_callee_finds (g : CFG) (t : Nat) :
    (g.resolve_callee t).1.find_function t = some (g.resolve_callee t).2 := by
  unfold CFG.resolve_callee
  cases hf : g.find_function t with
  | some f => simpa using hf
  | none =>
    unfold CFG.create_dummy_function CFG.find_function
    simp [List.find?]

lemma resolve_callee_find_mono (g : CFG) (t X : Nat) (f : ArmsFunction)
    (h : g.find_function X = some f) :
    (g.resolve_callee t).1.find_function X = some f := by
  unfold CFG.resolve_callee
  cases hf : g.find_function t with
  | some _ => exact h
  | none =>
    have hXt : ¬ (t = X) := by
      intro he
      rw [← he] at h
      rw [h] at hf
      cases hf
    unfold CFG.create_dummy_function CFG.find_function
    rw [List.find?_cons_of_neg]
    · exact h
    · simpa using hXt

lemma resolve_callee_nodup (g : CFG) (t : Nat)
    (h : (g.functions.map Prod.fst).Nodup) :
    ((g.resolve_callee t).1.functions.map Prod.fst).Nodup := by
  unfold CFG.resolve_callee
  cases hf : g.find_function t with
  | some _ => exact h
  | none =>
    unfold CFG.create_dummy_function
    simp only [List.map_cons]
    refine List.nodup_cons.mpr ⟨?_, h⟩
    intro hmem
    rcases List.mem_map.mp hmem with ⟨p, hp, hpt⟩
    unfold CFG.find_function at hf
    rw [Option.map_eq_none'] at hf
    have h2 := List.find?_eq_none.mp hf p hp
    simp at h2
    exact h2 hpt

lemma resolve_callee_coh (g : CFG) (t : Nat)
    (h : ∀ p ∈ g.functions, p.1 = p.2.entry) :
    ∀ p ∈ (g.resolve_callee t).1.functions, p.1 = p.2.entry := by
  unfold CFG.resolve_callee
  cases hf : g.find_function t with
  | some _ => exact h
  | none =>
    unfold CFG.create_dummy_function
    intro p hp
    rcases List.mem_cons.mp hp with h1 | h1
    · rw [h1]
    · exact h p h1

lemma resolve_callee_of_found (g : CFG) (X : Nat) (f : ArmsFunction)
    (h : g.find_function X = some f) : (g.resolve_callee X).2 = f := by
  unfold CFG.resolve_callee
  rw [h]

lemma handle_call_functions (g : CFG) (cs t : Nat) (ft : Option Nat) :
    (g.handle_interprocedural_call cs t ft).functions =
      (g.resolve_callee t).1.functions := by
  unfold CFG.handle_interprocedural_call
  cases ft with
  | none => rw [add_edge_dedup_functions]
  | some r => rw [add_edge_dedup_functions, add_edge_dedup_functions]

lemma handle_jmp_functions (g : CFG) (cs t : Nat) :
    (g.handle_interprocedural_jmp cs t).functions =
      (g.resolve_callee t).1.functions := by
  unfold CFG.handle_interprocedural_jmp
  rw [add_edge_dedup_functions]

lemma find_function_congr (g h : CFG) (a : Nat) (he : g.functions = h.functions) :
    g.find_function a = h.find_function a := by
  unfold CFG.find_function
  rw [he]

lemma applyCall_find_mono (g : CFG) (c : CallFact) (X : Nat) (f : ArmsFunction)
    (h : g.find_function X = some f) :
    (g.applyCall c).find_function X = some f := by
  cases c with
  | call cs t ft =>
    show (g.handle_interprocedural_call cs t ft).find_function X = some f
    rw [find_function_congr _ (g.resolve_callee t).1 X (handle_call_functions g cs t ft)]
    exact resolve_callee_find_mono g t X f h
  | jmp cs t =>
    show (g.handle_interprocedural_jmp cs t).find_function X = some f
    rw [find_function_congr _ (g.resolve_callee t).1 X (handle_jmp_functions g cs t)]
    exact resolve_callee_find_mono g t X f h

lemma applyCalls_find_mono (facts : List CallFact) (g : CFG) (X : Nat) (f : ArmsFunction)
    (h : g.find_function X = some f) :
    (g.applyCalls facts).find_function X = some f := by
  induction facts generalizing g with
  | nil => exact h
  | cons c cs ih => exact ih _ (applyCall_find_mono g c X f h)

lemma applyCall_nodup (g : CFG) (c : CallFact)
    (h : (g.functions.map Prod.fst).Nodup) :
    ((g.applyCall c).functions.map Prod.fst).Nodup := by
  cases c with
  | call cs t ft =>
    show ((g.handle_interprocedural_call cs t ft).functions.map Prod.fst).Nodup
    rw [handle_call_functions g cs t ft]
    exact resolve_callee_nodup g t h
  | jmp cs t =>
    show ((g.handle_interprocedural_jmp cs t).functions.map Prod.fst).Nodup
    rw [handle_jmp_functions g cs t]
    exact resolve_callee_nodup g t h

lemma applyCalls_nodup (facts : List CallFact) (g : CFG)
    (h : (g.functions.map Prod.fst).Nodup) :
    ((g.applyCalls facts).functions.map Prod.fst).Nodup := by
  induction facts generalizing g with
  | nil => exact h
  | cons c cs ih => exact ih _ (applyCall_nodup g c h)

/-- C3: a handle_interprocedural_call invocation with target X resolves to
the same Function object that any later invocation with target X resolves
to, its entry address is X, the functions map of every state reached from
the module constructor by interprocedural facts has no duplicate entry
address, and duplicate-freedom is preserved from any duplicate-free,
entry-coherent state. -/
theorem interprocedural_single_identity (g : CFG) (name : String)
    (facts more : List CallFact) (cs X : Nat) (ft : Option Nat)
    (hnd : (g.functions.map Prod.fst).Nodup)
    (hcoh : ∀ p ∈ g.functions, p.1 = p.2.entry) :
    (((g.handle_interprocedural_call cs X ft).applyCalls more).resolve_callee X).2 =
      (g.resolve_callee X).2 ∧
    (g.resolve_callee X).2.entry = X ∧
    ((((CFG.ofModule name).applyCalls facts).functions).map Prod.fst).Nodup ∧
    (((g.handle_interprocedural_call cs X ft).applyCalls more).functions.map
      Prod.fst).Nodup := by
  refine ⟨?_, resolve_callee_entry g X hcoh, ?_, ?_⟩
  · have h1 : (g.resolve_callee X).1.find_function X = some (g.resolve_callee X).2 :=
      resolve_callee_finds g X
    have h2 : (g.handle_interprocedural_call cs X ft).find_function X =
        some (g.resolve_callee X).2 := by
      rw [find_function_congr _ (g.resolve_callee X).1 X (handle_call_functions g cs X ft)]
      exact h1
    have h3 := applyCalls_find_mono more _ X _ h2
    exact resolve_callee_of_found _ X _ h3
  · exact applyCalls_nodup facts _ (by simp [CFG.ofModule])
  · refine applyCalls_nodup more _ ?_
    rw [handle_call_functions g cs X ft]
    exact resolve_callee_nodup g X hnd

/-- C3 witness: in the empty module CFG, a call to target 7 followed by
another resolution of 7 yields the identical dummy Function, via the main
theorem at concrete inputs. -/
theorem interprocedural_single_identity_witness :
    ((((CFG.ofModule "m").handle_interprocedural_call 1 7 none).applyCalls
        []).resolve_callee 7).2 = ((CFG.ofModule "m").resolve_callee 7).2 :=
  (interprocedural_single_identity (CFG.ofModule "m") "m" [] [] 1 7 none
    (by decide) (by decide)).1

lemma split_bb_noop_of_found (g : CFG) (T : Nat) (h : (g.find_bb T).isSome = true) :
    g.split_bb T = g := by
  unfold CFG.split_bb
  cases hf : g.find_bb T with
  | none => rw [hf] at h; cases h
  | some b => rfl

lemma split_bb_noop_of_nostrict (g : CFG) (T : Nat) (h1 : g.find_bb T = none)
    (h2 : g.find_bb_strictly_containing T = none) : g.split_bb T = g := by
  unfold CFG.split_bb
  rw [h1, h2]

lemma split_bb_eq_of_strict (g : CFG) (T : Nat) (b : ArmsBasicBlock)
    (h1 : g.find_bb T = none) (h2 : g.find_bb_strictly_containing T = some b) :
    g.split_bb T =
      { g with
        start2bb := (b.start, ArmsBasicBlock.mk b.start (T - 1)) ::
          (T, ArmsBasicBlock.mk T b.last_insn) ::
          g.start2bb.filter (fun p => !(decide (p.1 = b.start)))
        last2bb := (T - 1, ArmsBasicBlock.mk b.start (T - 1)) ::
          (b.last_insn, ArmsBasicBlock.mk T b.last_insn) ::
          g.last2bb.filter (fun p => !(decide (p.1 = b.last_insn)))
        num_bb := g.num_bb + 1
        edges := ArmsEdge.mk b.start T arms_edge_type_t.fallthrough ::
          g.edges.map (splitEdge b.start T) } := by
  unfold CFG.split_bb
  rw [h1, h2]

lemma strict_found (g : CFG) (a : Nat) (b : ArmsBasicBlock)
    (h : g.find_bb_strictly_containing a = some b) :
    (b.start < a ∧ a ≤ b.last_insn) ∧ ∃ q ∈ g.start2bb, q.2 = b := by
  unfold CFG.find_bb_strictly_containing at h
  cases hq : g.start2bb.find?
      (fun p => decide (p.2.start < a) && decide (a ≤ p.2.last_insn)) with
  | none => rw [hq] at h; cases h
  | some q =>
    rw [hq] at h
    simp at h
    have hp := List.find?_some hq
    simp at hp
    have hm := List.mem_of_find?_eq_some hq
    rw [← h]
    exact ⟨hp, q, hm, rfl⟩

lemma find_bb_none_keys (g : CFG) (a : Nat) (h : g.find_bb a = none) :
    ∀ p ∈ g.start2bb, ¬ (p.1 = a) := by
  unfold CFG.find_bb at h
  rw [Option.map_eq_none'] at h
  intro p hp
  have h2 := List.find?_eq_none.mp h p hp
  simpa using h2

/-- C1: splitting a block [A, E) at an interior address T (T strictly
inside an unsplit block, as witnessed by a failed start lookup and a strict
containment hit on the block with start A and last instruction E - 1)
leaves find_bb(A) returning the head whose last_instruction_address
immediately precedes T, find_bb(T) returning the new tail ending at the
original E, exactly one FALLTHROUGH edge from head to tail, every edge
formerly leaving the original block now leaving the tail, every incoming
edge still attached to the head, and a repeated split at T a no-op. -/
theorem split_block_correct (g : CFG) (A E T : Nat) (b : ArmsBasicBlock)
    (hnofind : g.find_bb T = none)
    (hcont : g.find_bb_strictly_containing T = some b)
    (hbs : b.start = A) (hbe : b.last_insn + 1 = E) :
    (∃ hd, (g.split_bb T).find_bb A = some hd ∧ hd.start = A ∧ hd.last_insn + 1 = T) ∧
    (∃ tl, (g.split_bb T).find_bb T = some tl ∧ tl.start = T ∧ tl.last_insn + 1 = E) ∧
    (g.split_bb T).edges.countP
      (fun e => decide (e = ArmsEdge.mk A T arms_edge_type_t.fallthrough)) = 1 ∧
    (∀ e ∈ g.edges, e.src = A →
      splitEdge A T e ∈ (g.split_bb T).edges ∧ (splitEdge A T e).src = T) ∧
    (∀ e ∈ g.edges, e.dst = A →
      splitEdge A T e ∈ (g.split_bb T).edges ∧ (splitEdge A T e).dst = A) ∧
    (g.split_bb T).split_bb T = g.split_bb T := by
  subst hbs
  subst hbe
  obtain ⟨⟨hb1, hb2⟩, -⟩ := strict_found g T b hcont
  have hATne : ¬ ((b.start : Nat) = T) := Nat.ne_of_lt hb1
  have hgeq := split_bb_eq_of_strict g T b hnofind hcont
  have hfindT : (g.split_bb T).find_bb T =
      some (ArmsBasicBlock.mk T b.last_insn) := by
    rw [hgeq]
    unfold CFG.find_bb
    simp [List.find?, hATne]
  refine ⟨?_, ?_, ?_, ?_, ?_, ?_⟩
  · refine ⟨ArmsBasicBlock.mk b.start (T - 1), ?_, rfl, ?_⟩
    · rw [hgeq]
      unfold CFG.find_bb
      simp [List.find?]
    · show T - 1 + 1 = T
      omega
  · exact ⟨ArmsBasicBlock.mk T b.last_insn, hfindT, rfl, rfl⟩
  · rw [hgeq]
    rw [List.countP_cons]
    have hz : (g.edges.map (splitEdge b.start T)).countP
        (fun e => decide (e = ArmsEdge.mk b.start T arms_edge_type_t.fallthrough)) = 0 := by
      rw [List.countP_eq_zero]
      intro e' he'
      rcases List.mem_map.mp he' with ⟨e, he, hmap⟩
      simp only [decide_eq_true_eq]
      intro heq
      rw [heq] at hmap
      unfold splitEdge at hmap
      by_cases hsrc : e.src = b.start
      · rw [if_pos hsrc] at hmap
        have : (T : Nat) = b.start := by
          have := congrArg ArmsEdge.src hmap
          simpa using this
        exact hATne this.symm
      · rw [if_neg hsrc] at hmap
        have : e.src = b.start := by
          have := congrArg ArmsEdge.src hmap
          simpa using this
        exact hsrc this
    rw [hz]
    simp
  · intro e he hsrc
    rw [hgeq]
    constructor
    · exact List.mem_cons_of_mem _ (List.mem_map_of_mem (splitEdge b.start T) he)
    · unfold splitEdge
      rw [if_pos hsrc]
  · intro e he hdst
    rw [hgeq]
    constructor
    · exact List.mem_cons_of_mem _ (List.mem_map_of_mem (splitEdge b.start T) he)
    · unfold splitEdge
      split
      · simpa using hdst
      · exact hdst
  · exact split_bb_noop_of_found _ T (by rw [hfindT]; rfl)

/-- C1 witness: a CFG with the single block [0x1000, 0x1010) split at
0x1008 yields a head ending at 0x1007, via the main theorem at concrete
inputs. -/
theorem split_block_correct_witness :
    ∃ hd,
      (({ CFG.ofModule "m" with
            start2bb := [(4096, ArmsBasicBlock.mk 4096 4111)]
            last2bb := [(4111, ArmsBasicBlock.mk 4096 4111)]
            num_bb := 1
            edges := [ArmsEdge.mk 4096 4112 arms_edge_type_t.jump] } :
          CFG).split_bb 4104).find_bb 4096 = some hd ∧
        hd.start = 4096 ∧ hd.last_insn + 1 = 4104 :=
  (split_block_correct
    ({ CFG.ofModule "m" with
        start2bb := [(4096, ArmsBasicBlock.mk 4096 4111)]
        last2bb := [(4111, ArmsBasicBlock.mk 4096 4111)]
        num_bb := 1
        edges := [ArmsEdge.mk 4096 4112 arms_edge_type_t.jump] } : CFG)
    4096 4112 4104 (ArmsBasicBlock.mk 4096 4111) (by decide) (by decide) rfl rfl).1

lemma find_bb_isSome_iff (g : CFG) (a : Nat) :
    (g.find_bb a).isSome = true ↔ ∃ p ∈ g.start2bb, p.1 = a := by
  unfold CFG.find_bb
  rw [Option.isSome_map', List.find?_isSome]
  simp

lemma strict_none_iff (g : CFG) (a : Nat) :
    g.find_bb_strictly_containing a = none ↔
      ∀ p ∈ g.start2bb, ¬ (p.2.start < a ∧ a ≤ p.2.last_insn) := by
  unfold CFG.find_bb_strictly_containing
  rw [Option.map_eq_none', List.find?_eq_none]
  simp

lemma add_edge_dedup_start2bb (g : CFG) (e : ArmsEdge) :
    (g.add_edge_dedup e).start2bb = g.start2bb := by
  unfold CFG.add_edge_dedup
  split <;> rfl

lemma find_bb_congr (g h : CFG) (a : Nat) (he : g.start2bb = h.start2bb) :
    g.find_bb a = h.find_bb a := by
  unfold CFG.find_bb
  rw [he]

lemma strict_congr (g h : CFG) (a : Nat) (he : g.start2bb = h.start2bb) :
    g.find_bb_strictly_containing a = h.find_bb_strictly_containing a := by
  unfold CFG.find_bb_strictly_containing
  rw [he]

lemma split_bb_noop_of_disj (g : CFG) (a : Nat)
    (h : (g.find_bb a).isSome = true ∨ g.find_bb_strictly_containing a = none) :
    g.split_bb a = g := by
  rcases h with h | h
  · exact split_bb_noop_of_found g a h
  · cases hf : g.find_bb a with
    | some b => exact split_bb_noop_of_found g a (by rw [hf]; rfl)
    | none => exact split_bb_noop_of_nostrict g a hf h

lemma find_bb_isSome_split_mono (g : CFG) (T a : Nat)
    (h : (g.find_bb a).isSome = true) :
    ((g.split_bb T).find_bb a).isSome = true := by
  cases hfT : g.find_bb T with
  | some _ =>
    rw [split_bb_noop_of_found g T (by rw [hfT]; rfl)]
    exact h
  | none =>
    cases hsT : g.find_bb_strictly_containing T with
    | none =>
      rw [split_bb_noop_of_nostrict g T hfT hsT]
      exact h
    | some b =>
      rw [split_bb_eq_of_strict g T b hfT hsT]
      rw [find_bb_isSome_iff] at h ⊢
      rcases h with ⟨p, hp, hpa⟩
      by_cases hab : a = b.start
      · exact ⟨(b.start, ArmsBasicBlock.mk b.start (T - 1)), by simp, hab.symm⟩
      · refine ⟨p, ?_, hpa⟩
        apply List.mem_cons_of_mem
        apply List.mem_cons_of_mem
        rw [List.mem_filter]
        refine ⟨hp, ?_⟩
        simp only [Bool.not_eq_eq_eq_not, Bool.not_true, decide_eq_false_iff_not]
        rw [hpa]
        exact hab

lemma strict_none_split_pres (g : CFG) (T a : Nat)
    (h : g.find_bb_strictly_containing a = none) :
    (g.split_bb T).find_bb_strictly_containing a = none := by
  cases hfT : g.find_bb T with
  | some _ =>
    rw [split_bb_noop_of_found g T (by rw [hfT]; rfl)]
    exact h
  | none =>
    cases hsT : g.find_bb_strictly_containing T with
    | none =>
      rw [split_bb_noop_of_nostrict g T hfT hsT]
      exact h
    | some b =>
      obtain ⟨⟨hb1, hb2⟩, q, hq, hqb⟩ := strict_found g T b hsT
      have hqcon := (strict_none_iff g a).mp h q hq
      rw [hqb] at hqcon
      rw [split_bb_eq_of_strict g T b hfT hsT]
      rw [strict_none_iff]
      intro p hp
      rcases List.mem_cons.mp hp with h1 | h1
      · rw [h1]
        intro hc
        exact hqcon ⟨by simpa using hc.1, by have := hc.2; simp at this; omega⟩
      · rcases List.mem_cons.mp h1 with h2 | h2
        · rw [h2]
          intro hc
          have hTa : T < a := by simpa using hc.1
          exact hqcon ⟨by omega, by simpa using hc.2⟩
        · exact (strict_none_iff g a).mp h p (List.mem_filter.mp h2).1

lemma split_bb_resolved_after (g : CFG) (a : Nat) :
    ((g.split_bb a).find_bb a).isSome = true ∨
      (g.split_bb a).find_bb_strictly_containing a = none := by
  cases hf : g.find_bb a with
  | some b =>
    left
    rw [split_bb_noop_of_found g a (by rw [hf]; rfl), hf]
    rfl
  | none =>
    cases hs : g.find_bb_strictly_containing a with
    | none =>
      right
      rw [split_bb_noop_of_nostrict g a hf hs]
      exact hs
    | some b =>
      left
      obtain ⟨⟨hb1, hb2⟩, -⟩ := strict_found g a b hs
      have hne : ¬ ((b.start : Nat) = a) := Nat.ne_of_lt hb1
      rw [split_bb_eq_of_strict g a b hf hs]
      rw [find_bb_isSome_iff]
      exact ⟨(a, ArmsBasicBlock.mk a b.last_insn), by simp, rfl⟩

lemma resolved_disj_split_pres (g : CFG) (T a : Nat)
    (h : (g.find_bb a).isSome = true ∨ g.find_bb_strictly_containing a = none) :
    ((g.split_bb T).find_bb a).isSome = true ∨
      (g.split_bb T).find_bb_strictly_containing a = none := by
  rcases h with h | h
  · exact Or.inl (find_bb_isSome_split_mono g T a h)
  · exact Or.inr (strict_none_split_pres g T a h)

lemma resolved_disj_add_edge_pres (g : CFG) (e : ArmsEdge) (a : Nat)
    (h : (g.find_bb a).isSome = true ∨ g.find_bb_strictly_containing a = none) :
    ((g.add_edge_dedup e).find_bb a).isSome = true ∨
      (g.add_edge_dedup e).find_bb_strictly_containing a = none := by
  rw [find_bb_congr (g.add_edge_dedup e) g a (add_edge_dedup_start2bb g e),
    strict_congr (g.add_edge_dedup e) g a (add_edge_dedup_start2bb g e)]
  exact h

lemma add_edge_dedup_noop (g : CFG) (e : ArmsEdge) (h : e ∈ g.edges) :
    g.add_edge_dedup e = g := by
  unfold CFG.add_edge_dedup
  rw [if_pos h]

/-- C6: create_and_add_edge resolves both endpoint blocks (splitting as
needed) and adds the edge only when no identical (source, target, kind)
triple exists: the resulting edge set always contains the triple, a triple
already present after endpoint resolution leaves the edge set untouched,
and repeating the same create_and_add_edge call is a complete no-op, so
count_edges() is unchanged by the second call. -/
theorem create_and_add_edge_dedup_idem (g : CFG) (s d : Nat) (k : arms_edge_type_t) :
    ArmsEdge.mk s d k ∈ (g.create_and_add_edge s d k).edges ∧
    (ArmsEdge.mk s d k ∈ (g.resolve_endpoints s d).edges →
      (g.create_and_add_edge s d k).edges = (g.resolve_endpoints s d).edges) ∧
    (g.create_and_add_edge s d k).create_and_add_edge s d k =
      g.create_and_add_edge s d k ∧
    ((g.create_and_add_edge s d k).create_and_add_edge s d k).count_edges =
      (g.create_and_add_edge s d k).count_edges := by
  have hmem : ArmsEdge.mk s d k ∈ (g.create_and_add_edge s d k).edges :=
    add_edge_dedup_self_mem _ _
  have hds : ((g.create_and_add_edge s d k).find_bb s).isSome = true ∨
      (g.create_and_add_edge s d k).find_bb_strictly_containing s = none := by
    apply resolved_disj_add_edge_pres
    apply resolved_disj_split_pres
    exact split_bb_resolved_after g s
  have hdd : ((g.create_and_add_edge s d k).find_bb d).isSome = true ∨
      (g.create_and_add_edge s d k).find_bb_strictly_containing d = none := by
    apply resolved_disj_add_edge_pres
    exact split_bb_resolved_after (g.split_bb s) d
  have hidem : (g.create_and_add_edge s d k).create_and_add_edge s d k =
      g.create_and_add_edge s d k := by
    show ((g.create_and_add_edge s d k).resolve_endpoints s d).add_edge_dedup
        (ArmsEdge.mk s d k) = g.create_and_add_edge s d k
    unfold CFG.resolve_endpoints
    rw [split_bb_noop_of_disj _ s hds, split_bb_noop_of_disj _ d hdd]
    exact add_edge_dedup_noop _ _ hmem
  refine ⟨hmem, ?_, hidem, by rw [hidem]⟩
  intro h
  show ((g.resolve_endpoints s d).add_edge_dedup (ArmsEdge.mk s d k)).edges =
    (g.resolve_endpoints s d).edges
  rw [add_edge_dedup_noop _ _ h]

/-- C6 witness: adding the same (source, target, kind) edge twice to the
empty module CFG leaves the edge count at 1, via the main theorem at
concrete inputs. -/
theorem create_and_add_edge_dedup_idem_witness :
    (((CFG.ofModule "m").create_and_add_edge 2 5
        arms_edge_type_t.jump).create_and_add_edge 2 5
        arms_edge_type_t.jump).count_edges =
      ((CFG.ofModule "m").create_and_add_edge 2 5 arms_edge_type_t.jump).count_edges :=
  (create_and_add_edge_dedup_idem (CFG.ofModule "m") 2 5 arms_edge_type_t.jump).2.2.2

lemma assoc_remove_perm {β : Type} (l : List (Nat × β)) (k : Nat) (v : β)
    (hmem : (k, v) ∈ l) (hnd : (l.map Prod.fst).Nodup) :
    List.Perm (l.map Prod.snd)
      (v :: ((l.filter (fun p => !(decide (p.1 = k)))).map Prod.snd)) := by
  induction l with
  | nil => cases hmem
  | cons p rest ih =>
    have hnd2 := List.nodup_cons.mp (show (p.1 :: rest.map Prod.fst).Nodup from hnd)
    rcases List.mem_cons.mp hmem with h1 | h1
    · rw [← h1]
      rw [← h1] at hnd2
      have hfil : rest.filter (fun p => !(decide (p.1 = k))) = rest := by
        apply List.filter_eq_self.mpr
        intro q hq
        simp only [Bool.not_eq_eq_eq_not, Bool.not_true, decide_eq_false_iff_not]
        intro hqk
        apply hnd2.1
        show k ∈ rest.map Prod.fst
        rw [← hqk]
        exact List.mem_map_of_mem Prod.fst hq
      rw [List.filter_cons]
      simp only [decide_True, Bool.not_true, if_neg (by simp : ¬ ((!(decide (k = k))) = true))]
      rw [hfil]
      exact List.Perm.refl _
    · have hpk : ¬ (p.1 = k) := by
        intro he
        have hk : k ∈ rest.map Prod.fst := by
          have := List.mem_map_of_mem Prod.fst h1
          simpa using this
        rw [← he] at hk
        exact hnd2.1 hk
      rw [List.filter_cons]
      rw [if_pos (by simpa using hpk)]
      simp only [List.map_cons]
      have hperm := ih h1 hnd2.2
      exact (hperm.cons p.2).trans (List.Perm.swap v p.2 _)

lemma store_bb_wf (g : CFG) (bb : ArmsBasicBlock) (h : g.IndexWF) :
    (g.store_bb bb).IndexWF := by
  unfold CFG.store_bb
  split
  · exact h
  split
  · exact h
  rename_i hdeg hov
  obtain ⟨hperm, hskey, hlkey, hsnd, hlnd, hwf, hdisj, hcnt⟩ := h
  have hnool : ∀ p ∈ g.start2bb,
      ¬ (bb.start ≤ p.2.last_insn ∧ p.2.start ≤ bb.last_insn) := by
    intro p hp hc
    apply hov
    rw [List.any_eq_true]
    exact ⟨p, hp, by simp [hc.1, hc.2]⟩
  have hse : bb.start ≤ bb.last_insn := Nat.le_of_not_lt hdeg
  refine ⟨?_, ?_, ?_, ?_, ?_, ?_, ?_, ?_⟩
  · simpa using hperm.cons bb
  · intro p hp
    rcases List.mem_cons.mp hp with h1 | h1
    · rw [h1]
    · exact hskey p h1
  · intro p hp
    rcases List.mem_cons.mp hp with h1 | h1
    · rw [h1]
    · exact hlkey p h1
  · simp only [List.map_cons]
    refine List.nodup_cons.mpr ⟨?_, hsnd⟩
    intro hk
    rcases List.mem_map.mp hk with ⟨p, hp, hpk⟩
    have hps : p.1 = p.2.start := hskey p hp
    have hwfp : p.2.start ≤ p.2.last_insn := hwf p.2 (List.mem_map_of_mem Prod.snd hp)
    exact hnool p hp ⟨by omega, by omega⟩
  · simp only [List.map_cons]
    refine List.nodup_cons.mpr ⟨?_, hlnd⟩
    intro hk
    rcases List.mem_map.mp hk with ⟨p, hp, hpk⟩
    have hpl : p.1 = p.2.last_insn := hlkey p hp
    have hvalS : p.2 ∈ g.start2bb.map Prod.snd :=
      hperm.mem_iff.mpr (List.mem_map_of_mem Prod.snd hp)
    rcases List.mem_map.mp hvalS with ⟨q, hq, hqp⟩
    have hwfp : p.2.start ≤ p.2.last_insn := hwf p.2 hvalS
    refine hnool q hq ⟨?_, ?_⟩ <;> rw [hqp] <;> omega
  · intro c hc
    rcases List.mem_cons.mp
        (show c ∈ bb :: g.start2bb.map Prod.snd from hc) with h1 | h1
    · rw [h1]; exact hse
    · exact hwf c h1
  · simp only [List.map_cons]
    refine List.pairwise_cons.mpr ⟨?_, hdisj⟩
    intro c hc
    rcases List.mem_map.mp hc with ⟨q, hq, hqc⟩
    have hno := hnool q hq
    rw [hqc] at hno
    by_cases hA : bb.start ≤ c.last_insn
    · left
      by_contra hB
      exact hno ⟨hA, by omega⟩
    · right
      omega
  · simp [hcnt]

lemma split_bb_wf (g : CFG) (T : Nat) (h : g.IndexWF) : (g.split_bb T).IndexWF := by
  cases hfT : g.find_bb T with
  | some b0 =>
    rw [split_bb_noop_of_found g T (by rw [hfT]; rfl)]
    exact h
  | none =>
    cases hsT : g.find_bb_strictly_containing T with
    | none =>
      rw [split_bb_noop_of_nostrict g T hfT hsT]
      exact h
    | some b =>
      rw [split_bb_eq_of_strict g T b hfT hsT]
      obtain ⟨⟨hb1, hb2⟩, q, hqmem, hqb⟩ := strict_found g T b hsT
      obtain ⟨hperm, hskey, hlkey, hsnd, hlnd, hwf, hdisj, hcnt⟩ := h
      obtain ⟨qk, qv⟩ := q
      simp only at hqb
      subst hqb
      have hq1 : qk = qv.start := hskey (qk, qv) hqmem
      subst hq1
      have hbS : qv ∈ g.start2bb.map Prod.snd := List.mem_map_of_mem Prod.snd hqmem
      have hbL : qv ∈ g.last2bb.map Prod.snd := hperm.mem_iff.mp hbS
      obtain ⟨r, hrmem, hrb⟩ := List.mem_map.mp hbL
      obtain ⟨rk, rv⟩ := r
      simp only at hrb
      subst hrb
      have hr1 : rk = rv.last_insn := hlkey (rk, rv) hrmem
      subst hr1
      have hTkeys := find_bb_none_keys g T hfT
      have hpermS := assoc_remove_perm g.start2bb rv.start rv hqmem hsnd
      have hpermL := assoc_remove_perm g.last2bb rv.last_insn rv hrmem hlnd
      have hSfsub : (g.start2bb.filter
          (fun p => !(decide (p.1 = rv.start)))).Sublist g.start2bb :=
        List.filter_sublist _
      have hLfsub : (g.last2bb.filter
          (fun p => !(decide (p.1 = rv.last_insn)))).Sublist g.last2bb :=
        List.filter_sublist _
      have hSfLf := List.Perm.cons_inv (hpermS.symm.trans (hperm.trans hpermL))
      have hsymm : Symmetric
          (fun b c : ArmsBasicBlock => b.last_insn < c.start ∨ c.last_insn < b.start) :=
        fun x y hxy => Or.symm hxy
      refine ⟨?_, ?_, ?_, ?_, ?_, ?_, ?_, ?_⟩
      · simp only [List.map_cons]
        exact (hSfLf.cons _).cons _
      · intro p hp
        rcases List.mem_cons.mp hp with h1 | h1
        · rw [h1]
        · rcases List.mem_cons.mp h1 with h2 | h2
          · rw [h2]
          · exact hskey p (hSfsub.subset h2)
      · intro p hp
        rcases List.mem_cons.mp hp with h1 | h1
        · rw [h1]
        · rcases List.mem_cons.mp h1 with h2 | h2
          · rw [h2]
          · exact hlkey p (hLfsub.subset h2)
      · simp only [List.map_cons]
        refine List.nodup_cons.mpr ⟨?_, List.nodup_cons.mpr ⟨?_, ?_⟩⟩
        · intro hmem'
          rcases List.mem_cons.mp hmem' with h1 | h1
          · omega
          · rcases List.mem_map.mp h1 with ⟨p, hp, hpk⟩
            have hf2 := (List.mem_filter.mp hp).2
            simp only [Bool.not_eq_eq_eq_not, Bool.not_true,
              decide_eq_false_iff_not] at hf2
            exact hf2 hpk
        · intro hmem'
          rcases List.mem_map.mp hmem' with ⟨p, hp, hpk⟩
          exact hTkeys p ((List.mem_filter.mp hp).1) hpk
        · exact hsnd.sublist (hSfsub.map Prod.fst)
      · simp only [List.map_cons]
        refine List.nodup_cons.mpr ⟨?_, List.nodup_cons.mpr ⟨?_, ?_⟩⟩
        · intro hmem'
          rcases List.mem_cons.mp hmem' with h1 | h1
          · omega
          · rcases List.mem_map.mp h1 with ⟨p, hp, hpk⟩
            have hpL : p ∈ g.last2bb := (List.mem_filter.mp hp).1
            have hpkey : p.1 = p.2.last_insn := hlkey p hpL
            have hcS : p.2 ∈ g.start2bb.map Prod.snd :=
              hperm.mem_iff.mpr (List.mem_map_of_mem Prod.snd hpL)
            have hcb : p.2 ≠ rv := by
              intro he
              have hf2 := (List.mem_filter.mp hp).2
              simp only [Bool.not_eq_eq_eq_not, Bool.not_true,
                decide_eq_false_iff_not] at hf2
              rw [he] at hpkey
              exact hf2 hpkey
            have hR := hdisj.forall hsymm hbS hcS (Ne.symm hcb)
            have hwfc := hwf p.2 hcS
            rcases hR with hx | hx <;> omega
        · intro hmem'
          rcases List.mem_map.mp hmem' with ⟨p, hp, hpk⟩
          have hf2 := (List.mem_filter.mp hp).2
          simp only [Bool.not_eq_eq_eq_not, Bool.not_true,
            decide_eq_false_iff_not] at hf2
          exact hf2 hpk
        · exact hlnd.sublist (hLfsub.map Prod.fst)
      · intro c hc
        simp only [List.map_cons] at hc
        rcases List.mem_cons.mp hc with h1 | h1
        · rw [h1]
          show rv.start ≤ T - 1
          omega
        · rcases List.mem_cons.mp h1 with h2 | h2
          · rw [h2]
            exact hb2
          · exact hwf c ((hSfsub.map Prod.snd).subset h2)
      · simp only [List.map_cons]
        refine List.pairwise_cons.mpr ⟨?_, List.pairwise_cons.mpr ⟨?_, ?_⟩⟩
        · intro c hc
          rcases List.mem_cons.mp hc with h1 | h1
          · rw [h1]
            left
            show T - 1 < T
            omega
          · rcases List.mem_map.mp h1 with ⟨p, hp, hpc⟩
            have hpS : p ∈ g.start2bb := (List.mem_filter.mp hp).1
            have hcvals : c ∈ g.start2bb.map Prod.snd := by
              rw [← hpc]
              exact List.mem_map_of_mem Prod.snd hpS
            have hcb : c ≠ rv := by
              intro he
              have hf2 := (List.mem_filter.mp hp).2
              simp only [Bool.not_eq_eq_eq_not, Bool.not_true,
                decide_eq_false_iff_not] at hf2
              have hps : p.1 = p.2.start := hskey p hpS
              apply hf2
              rw [hps, hpc, he]
            have hR := hdisj.forall hsymm hbS hcvals (Ne.symm hcb)
            have hwfc := hwf c hcvals
            rcases hR with hx | hx
            · left
              show T - 1 < c.start
              omega
            · right
              exact hx
        · intro c hc
          rcases List.mem_map.mp hc with ⟨p, hp, hpc⟩
          have hpS : p ∈ g.start2bb := (List.mem_filter.mp hp).1
          have hcvals : c ∈ g.start2bb.map Prod.snd := by
            rw [← hpc]
            exact List.mem_map_of_mem Prod.snd hpS
          have hcb : c ≠ rv := by
            intro he
            have hf2 := (List.mem_filter.mp hp).2
            simp only [Bool.not_eq_eq_eq_not, Bool.not_true,
              decide_eq_false_iff_not] at hf2
            have hps : p.1 = p.2.start := hskey p hpS
            apply hf2
            rw [hps, hpc, he]
          have hR := hdisj.forall hsymm hbS hcvals (Ne.symm hcb)
          have hwfc := hwf c hcvals
          rcases hR with hx | hx
          · left
            exact hx
          · right
            show c.last_insn < T
            omega
        · exact hdisj.sublist (hSfsub.map Prod.snd)
      · have hlen := hpermS.length_eq
        simp only [List.length_map, List.length_cons] at hlen
        show g.num_bb + 1 = _
        simp only [List.length_cons]
        omega

lemma applyOp_wf (g : CFG) (op : CfgOp) (h : g.IndexWF) : (g.applyOp op).IndexWF := by
  cases op with
  | insert bb => exact store_bb_wf g bb h
  | split t => exact split_bb_wf g t h

lemma applyOps_wf (ops : List CfgOp) (g : CFG) (h : g.IndexWF) :
    (g.applyOps ops).IndexWF := by
  induction ops generalizing g with
  | nil => exact h
  | cons op rest ih => exact ih _ (applyOp_wf g op h)

lemma ofModule_index_wf (name : String) : (CFG.ofModule name).IndexWF := by
  refine ⟨?_, ?_, ?_, ?_, ?_, ?_, ?_, ?_⟩ <;> simp [CFG.ofModule]

lemma ofRoot_index_wf (root : ArmsBasicBlock) : (CFG.ofRoot root).IndexWF := by
  refine ⟨?_, ?_, ?_, ?_, ?_, ?_, ?_, ?_⟩ <;> simp [CFG.ofRoot]

lemma index_wf_conclusions (g : CFG) (h : g.IndexWF) :
    List.Perm (g.start2bb.map Prod.snd) (g.last2bb.map Prod.snd) ∧
    (g.start2bb.map Prod.snd).Nodup ∧
    (g.last2bb.map Prod.snd).Nodup ∧
    g.start2bb.length = g.last2bb.length ∧
    g.num_bb = g.count_basic_blocks ∧
    g.count_basic_blocks = g.start2bb.length := by
  obtain ⟨hperm, hskey, hlkey, hsnd, hlnd, hwf, hdisj, hcnt⟩ := h
  have hmapS : g.start2bb.map Prod.fst =
      (g.start2bb.map Prod.snd).map ArmsBasicBlock.start := by
    rw [List.map_map]
    exact List.map_congr_left (fun p hp => hskey p hp)
  have hmapL : g.last2bb.map Prod.fst =
      (g.last2bb.map Prod.snd).map ArmsBasicBlock.last_insn := by
    rw [List.map_map]
    exact List.map_congr_left (fun p hp => hlkey p hp)
  refine ⟨hperm, ?_, ?_, ?_, hcnt, rfl⟩
  · rw [hmapS] at hsnd
    exact hsnd.of_map _
  · rw [hmapL] at hlnd
    exact hlnd.of_map _
  · have := hperm.length_eq
    simpa using this

/-- C2: after every sequence of block inserts and splits applied to a CFG
from either constructor, the start-address index and the
last-instruction-address index hold exactly the same blocks with one entry
each (the index contents are a permutation of each other and
duplicate-free), both indexes have equal size, and num_bb equals that
common size, which is what count_basic_blocks() reports. -/
theorem index_symmetry (name : String) (root : ArmsBasicBlock) (ops : List CfgOp) :
    (List.Perm (((CFG.ofModule name).applyOps ops).start2bb.map Prod.snd)
        (((CFG.ofModule name).applyOps ops).last2bb.map Prod.snd) ∧
      (((CFG.ofModule name).applyOps ops).start2bb.map Prod.snd).Nodup ∧
      (((CFG.ofModule name).applyOps ops).last2bb.map Prod.snd).Nodup ∧
      ((CFG.ofModule name).applyOps ops).start2bb.length =
        ((CFG.ofModule name).applyOps ops).last2bb.length ∧
      ((CFG.ofModule name).applyOps ops).num_bb =
        ((CFG.ofModule name).applyOps ops).count_basic_blocks ∧
      ((CFG.ofModule name).applyOps ops).count_basic_blocks =
        ((CFG.ofModule name).applyOps ops).start2bb.length) ∧
    (List.Perm (((CFG.ofRoot root).applyOps ops).start2bb.map Prod.snd)
        (((CFG.ofRoot root).applyOps ops).last2bb.map Prod.snd) ∧
      (((CFG.ofRoot root).applyOps ops).start2bb.map Prod.snd).Nodup ∧
      (((CFG.ofRoot root).applyOps ops).last2bb.map Prod.snd).Nodup ∧
      ((CFG.ofRoot root).applyOps ops).start2bb.length =
        ((CFG.ofRoot root).applyOps ops).last2bb.length ∧
      ((CFG.ofRoot root).applyOps ops).num_bb =
        ((CFG.ofRoot root).applyOps ops).count_basic_blocks ∧
      ((CFG.ofRoot root).applyOps ops).count_basic_blocks =
        ((CFG.ofRoot root).applyOps ops).start2bb.length) :=
  ⟨index_wf_conclusions _ (applyOps_wf ops _ (ofModule_index_wf name)),
   index_wf_conclusions _ (applyOps_wf ops _ (ofRoot_index_wf root))⟩
